import Mathlib

/-!
Verification of the stack hashing constraint evaluator
(`src/stark/constraints/stack/hashing.rs`).

The evaluator's collaborators (finite-field primitives, polynomial
evaluation, and the permutation's sbox / MDS layers and round constants)
live outside the verified source tree, so they are modelled from the
specification: field elements are `ZMod p` with ring operations standing
for `field::add/sub/mul`, the nonlinear layer is an arbitrary elementwise
map, and the linear mixing layer and its inverse are arbitrary square
matrices given as index functions.  The configuration constants
`HASH_STATE_WIDTH`, `HASH_CYCLE_LENGTH` and `NUM_AUX_CONSTRAINTS` are
parameters (the spec leaves them to the surrounding system's
configuration).

Rust panics (out-of-bounds indexing, `copy_from_slice` on a short row)
are modelled by returning `none`: each function's guard condition holds
exactly when the corresponding Rust code runs without panicking.
-/

/-- Modelled from the spec: `polynom::eval`, Horner-style evaluation of a
coefficient-form polynomial at a field point. -/
def polyEval {p : ℕ} (coeffs : List (ZMod p)) (x : ZMod p) : ZMod p :=
  coeffs.foldr (fun c acc => c + x * acc) 0

/-- Modelled from the spec: `hasher::apply_sbox` — the permutation's forward
nonlinear map, applied to each element of the state. -/
def applySbox {p : ℕ} (sbox : ZMod p → ZMod p) (state : List (ZMod p)) : List (ZMod p) :=
  state.map sbox

/-- Modelled from the spec: `hasher::apply_mds` / `hasher::apply_inv_mds` —
application of a `w × w` linear mixing matrix (given as an index function)
to the state. -/
def applyMds {p : ℕ} (w : ℕ) (A : ℕ → ℕ → ZMod p) (state : List (ZMod p)) : List (ZMod p) :=
  (List.range w).map fun i => ∑ j ∈ Finset.range w, A i j * state.getD j 0

/-- The `HashEvaluator` struct from `hashing.rs`. -/
structure HashEvaluator (p : ℕ) where
  traceLength : ℕ
  cycleLength : ℕ
  arkValues : List (List (ZMod p))
  arkPolys : List (List (ZMod p))
deriving DecidableEq

/-- `HashEvaluator::new`: transposes the collaborator's column-major constant
evaluations into row-major `arkValues` (one row of `2*w` constants per step of
the extended cycle).  The collaborator `hasher::get_extended_constants` is not
in the verified tree, so its output `(arkPolys, arkEvaluations)` is taken as an
argument.  Returns `none` exactly when the Rust transposition loop would index
out of bounds (a column missing, or a column shorter than the cycle). -/
def HashEvaluator.new {p : ℕ} (HCL w : ℕ) (traceLength extensionFactor : ℕ)
    (arkPolys arkEvaluations : List (List (ZMod p))) : Option (HashEvaluator p) :=
  if 2 * w ≤ arkEvaluations.length ∧
      ∀ col ∈ arkEvaluations.take (2 * w), HCL * extensionFactor ≤ col.length then
    some ⟨traceLength, HCL * extensionFactor,
      (List.range (HCL * extensionFactor)).map fun i =>
        (List.range (2 * w)).map fun j => (arkEvaluations.getD j []).getD i 0,
      arkPolys⟩
  else none

/-- The `state_part1` computation of `HashEvaluator::eval_hash`: copy the
current row's hash-state, add the first-half round constants, apply the
sbox, then the MDS matrix (the "forward-computed" half). -/
def statePart1 {p : ℕ} (w : ℕ) (sbox : ZMod p → ZMod p) (M : ℕ → ℕ → ZMod p)
    (current ark : List (ZMod p)) : List (ZMod p) :=
  applyMds w M (applySbox sbox ((current.take w).zipWith (· + ·) (ark.take w)))

/-- The `state_part2` computation of `HashEvaluator::eval_hash`: copy the
next row's hash-state, apply the inverse MDS matrix, apply the (forward)
sbox, then subtract the second-half round constants (the
"backward-computed" half). -/
def statePart2 {p : ℕ} (w : ℕ) (sbox : ZMod p → ZMod p) (Minv : ℕ → ℕ → ZMod p)
    (next ark : List (ZMod p)) : List (ZMod p) :=
  (applySbox sbox (applyMds w Minv (next.take w))).zipWith (· - ·) ((ark.drop w).take w)

/-- `HashEvaluator::eval_hash`: adds `(state_part2[i] - state_part1[i]) * op_flag`
into `result[i]` for `i < min result.length w`.  `none` exactly when the Rust
code would panic: `current` or `next` shorter than the hash-state width, or
`ark` shorter than `2*w`. -/
def evalHash {p : ℕ} (w : ℕ) (sbox : ZMod p → ZMod p) (M Minv : ℕ → ℕ → ZMod p)
    (current next ark : List (ZMod p)) (opFlag : ZMod p)
    (result : List (ZMod p)) : Option (List (ZMod p)) :=
  if w ≤ current.length ∧ w ≤ next.length ∧ 2 * w ≤ ark.length then
    some ((List.range result.length).map fun i =>
      if i < min result.length w then
        result.getD i 0 +
          ((statePart2 w sbox Minv next ark).getD i 0 -
            (statePart1 w sbox M current ark).getD i 0) * opFlag
      else result.getD i 0)
  else none

/-- `HashEvaluator::eval_rest`: adds `(next[i] - current[i]) * op_flag` into
`result[i]` for `w ≤ i < result.length`.  `none` exactly when the Rust loop
would index `current` or `next` out of bounds. -/
def evalRest {p : ℕ} (w : ℕ) (current next : List (ZMod p)) (opFlag : ZMod p)
    (result : List (ZMod p)) : Option (List (ZMod p)) :=
  if result.length ≤ w ∨ (result.length ≤ current.length ∧ result.length ≤ next.length) then
    some ((List.range result.length).map fun i =>
      if w ≤ i then result.getD i 0 + (next.getD i 0 - current.getD i 0) * opFlag
      else result.getD i 0)
  else none

/-- `HashEvaluator::evaluate` (the fast in-domain path): reduce the step
modulo the extended cycle length, look up the precomputed constant row, and
delegate to `evalHash` then `evalRest` on the accumulator slice past the
first `NA` (= `NUM_AUX_CONSTRAINTS`) entries. -/
def HashEvaluator.evaluate {p : ℕ} (NA w : ℕ) (sbox : ZMod p → ZMod p)
    (M Minv : ℕ → ℕ → ZMod p) (e : HashEvaluator p) (current next : List (ZMod p))
    (step : ℕ) (opFlag : ZMod p) (result : List (ZMod p)) : Option (List (ZMod p)) :=
  if NA ≤ result.length ∧ step % e.cycleLength < e.arkValues.length then
    (evalHash w sbox M Minv current next
        (e.arkValues.getD (step % e.cycleLength) []) opFlag (result.drop NA)).bind fun r1 =>
      (evalRest w current next opFlag r1).map fun r2 => result.take NA ++ r2
  else none

/-- `HashEvaluator::evaluate_at` (the slow out-of-domain path): raise the
point to the number of cycles in the trace, evaluate each round-constant
polynomial there, and delegate to `evalHash` then `evalRest` on the
accumulator slice past the first `NA` entries. -/
def HashEvaluator.evaluateAt {p : ℕ} (NA w HCL : ℕ) (sbox : ZMod p → ZMod p)
    (M Minv : ℕ → ℕ → ZMod p) (e : HashEvaluator p) (current next : List (ZMod p))
    (x : ZMod p) (opFlag : ZMod p) (result : List (ZMod p)) : Option (List (ZMod p)) :=
  if NA ≤ result.length ∧ 2 * w ≤ e.arkPolys.length then
    (evalHash w sbox M Minv current next
        ((List.range (2 * w)).map fun i =>
          polyEval (e.arkPolys.getD i []) (x ^ (e.traceLength / HCL)))
        opFlag (result.drop NA)).bind fun r1 =>
      (evalRest w current next opFlag r1).map fun r2 => result.take NA ++ r2
  else none

/-- The hash-round constraint value at position `i` (before gating by the
selector flag): backward-computed minus forward-computed. -/
def hashConstraint {p : ℕ} (w : ℕ) (sbox : ZMod p → ZMod p) (M Minv : ℕ → ℕ → ZMod p)
    (current next ark : List (ZMod p)) (i : ℕ) : ZMod p :=
  (statePart2 w sbox Minv next ark).getD i 0 - (statePart1 w sbox M current ark).getD i 0

/-- Modelled from the spec: the permutation collaborator's single-round
semantics — add the first-half constants, apply the forward nonlinear map and
the mixing matrix, add the second-half constants, then apply the inverse
nonlinear map and the mixing matrix (the constraint "redoes, not inverts"
the round's second nonlinear step, so that step is the inverse map). -/
def hashRound {p : ℕ} (w : ℕ) (sbox invSbox : ZMod p → ZMod p) (M : ℕ → ℕ → ZMod p)
    (current ark : List (ZMod p)) : List (ZMod p) :=
  applyMds w M (applySbox invSbox
    ((applyMds w M (applySbox sbox ((current.take w).zipWith (· + ·) (ark.take w)))).zipWith
      (· + ·) ((ark.drop w).take w)))

/-- The round map exactly as claim C2 words it: the FORWARD nonlinear map in
both halves, `next = MDS(Sbox(MDS(Sbox(current + K1)) + K2))`. -/
def claimedRound {p : ℕ} (w : ℕ) (sbox : ZMod p → ZMod p) (M : ℕ → ℕ → ZMod p)
    (current ark : List (ZMod p)) : List (ZMod p) :=
  applyMds w M (applySbox sbox
    ((applyMds w M (applySbox sbox ((current.take w).zipWith (· + ·) (ark.take w)))).zipWith
      (· + ·) ((ark.drop w).take w)))

/-- This evaluator's additive contribution at slice position `i` (position
`NA + i` of the full accumulator): the flag-gated hash constraint for
`i < w`, the flag-gated copy constraint for `i ≥ w`.  Independent of the
accumulator's prior contents. -/
def contribution {p : ℕ} (w : ℕ) (sbox : ZMod p → ZMod p) (M Minv : ℕ → ℕ → ZMod p)
    (current next ark : List (ZMod p)) (opFlag : ZMod p) (i : ℕ) : ZMod p :=
  if i < w then hashConstraint w sbox M Minv current next ark i * opFlag
  else (next.getD i 0 - current.getD i 0) * opFlag

/-- Concrete instantiation used for witnesses: the cube map on `ZMod 11`
(a permutation, since `gcd 3 10 = 1`). -/
def sbox11 : ZMod 11 → ZMod 11 := fun x => x ^ 3

/-- Concrete instantiation used for witnesses: the inverse of `sbox11`
(`x ↦ x ^ 7`, since `3 * 7 ≡ 1 [MOD 10]`). -/
def isbox11 : ZMod 11 → ZMod 11 := fun x => x ^ 7

/-- Concrete instantiation used for witnesses: the identity mixing matrix. -/
def idMat : ℕ → ℕ → ZMod 11 := fun i j => if i = j then 1 else 0

/-- Concrete instantiation used for witnesses: the `2 × 2` MDS matrix
`[[1,1],[1,2]]` over `ZMod 11`. -/
def mdsA : ℕ → ℕ → ZMod 11 := fun i j =>
  if i = 0 then 1 else if j = 0 then 1 else 2

/-- Concrete instantiation used for witnesses: the inverse of `mdsA`,
`[[2,-1],[-1,1]] = [[2,10],[10,1]]` over `ZMod 11`. -/
def mdsAinv : ℕ → ℕ → ZMod 11 := fun i j =>
  if i = 0 then (if j = 0 then 2 else 10) else if j = 0 then 10 else 1

/-! ## Helper lemmas about list indexing -/

theorem getD_range_map {α : Type} (f : ℕ → α) (n i : ℕ) (d : α) (h : i < n) :
    ((List.range n).map f).getD i d = f i := by
  rw [List.getD_eq_getElem?_getD, List.getElem?_map, List.getElem?_range h]
  rfl

theorem getD_map_of_lt {α β : Type} (f : α → β) (l : List α) (i : ℕ) (d : α) (d2 : β)
    (h : i < l.length) : (l.map f).getD i d2 = f (l.getD i d) := by
  rw [List.getD_eq_getElem?_getD, List.getElem?_map, List.getElem?_eq_getElem h,
    List.getD_eq_getElem l d h]
  rfl

theorem getD_zipWith_of_lt {α : Type} (f : α → α → α) (a b : List α) (i : ℕ) (d : α)
    (h1 : i < a.length) (h2 : i < b.length) :
    (List.zipWith f a b).getD i d = f (a.getD i d) (b.getD i d) := by
  have hz : i < (List.zipWith f a b).length := by
    rw [List.length_zipWith]; omega
  rw [List.getD_eq_getElem _ d hz, List.getD_eq_getElem a d h1, List.getD_eq_getElem b d h2]
  exact List.getElem_zipWith

theorem getD_take_of_lt {α : Type} (l : List α) (n i : ℕ) (d : α) (h : i < n) :
    (l.take n).getD i d = l.getD i d := by
  rw [List.getD_eq_getElem?_getD, List.getD_eq_getElem?_getD, List.getElem?_take, if_pos h]

theorem getD_drop_add {α : Type} (l : List α) (n i : ℕ) (d : α) :
    (l.drop n).getD i d = l.getD (n + i) d := by
  rw [List.getD_eq_getElem?_getD, List.getD_eq_getElem?_getD, List.getElem?_drop]

theorem ext_getD {α : Type} (a b : List α) (d : α) (hl : a.length = b.length)
    (h : ∀ i < a.length, a.getD i d = b.getD i d) : a = b := by
  apply List.ext_getElem hl
  intro i h1 h2
  have hi := h i h1
  rwa [List.getD_eq_getElem a d h1, List.getD_eq_getElem b d h2] at hi

theorem map_getD_range {α : Type} (l : List α) (d : α) :
    (List.range l.length).map (fun i => l.getD i d) = l := by
  apply ext_getD _ _ d (by simp)
  intro i hi
  simp only [List.length_map, List.length_range] at hi
  rw [getD_range_map _ _ _ _ hi]

/-! ## Helper lemmas about the modelled linear layer -/

theorem applyMds_length {p : ℕ} (w : ℕ) (A : ℕ → ℕ → ZMod p) (s : List (ZMod p)) :
    (applyMds w A s).length = w := by
  simp [applyMds]

theorem applyMds_getD {p : ℕ} (w : ℕ) (A : ℕ → ℕ → ZMod p) (s : List (ZMod p)) (i : ℕ)
    (h : i < w) :
    (applyMds w A s).getD i 0 = ∑ j ∈ Finset.range w, A i j * s.getD j 0 := by
  unfold applyMds
  exact getD_range_map _ _ _ _ h

theorem applyMds_applyMds {p : ℕ} (w : ℕ) (A B : ℕ → ℕ → ZMod p)
    (hAB : ∀ i < w, ∀ k < w, ∑ j ∈ Finset.range w, A i j * B j k = if i = k then 1 else 0)
    (s : List (ZMod p)) (hs : s.length = w) : applyMds w A (applyMds w B s) = s := by
  apply ext_getD _ _ 0
  · rw [applyMds_length, hs]
  intro i hi
  rw [applyMds_length] at hi
  rw [applyMds_getD _ _ _ _ hi]
  calc ∑ j ∈ Finset.range w, A i j * (applyMds w B s).getD j 0
      = ∑ j ∈ Finset.range w, A i j * ∑ k ∈ Finset.range w, B j k * s.getD k 0 := by
        refine Finset.sum_congr rfl fun j hj => ?_
        rw [applyMds_getD _ _ _ _ (Finset.mem_range.mp hj)]
    _ = ∑ j ∈ Finset.range w, ∑ k ∈ Finset.range w, A i j * (B j k * s.getD k 0) := by
        refine Finset.sum_congr rfl fun j hj => ?_
        rw [Finset.mul_sum]
    _ = ∑ k ∈ Finset.range w, ∑ j ∈ Finset.range w, A i j * (B j k * s.getD k 0) :=
        Finset.sum_comm
    _ = ∑ k ∈ Finset.range w, (∑ j ∈ Finset.range w, A i j * B j k) * s.getD k 0 := by
        refine Finset.sum_congr rfl fun k hk => ?_
        rw [Finset.sum_mul]
        refine Finset.sum_congr rfl fun j hj => ?_
        ring
    _ = ∑ k ∈ Finset.range w, (if i = k then 1 else 0) * s.getD k 0 := by
        refine Finset.sum_congr rfl fun k hk => ?_
        rw [hAB i hi k (Finset.mem_range.mp hk)]
    _ = s.getD i 0 := by
        rw [Finset.sum_eq_single i]
        · rw [if_pos rfl, one_mul]
        · intro b hb hne
          rw [if_neg (Ne.symm hne), zero_mul]
        · intro hnot
          exact absurd (Finset.mem_range.mpr hi) hnot

/-! ## Helper lemmas about the two constraint halves -/

theorem statePart1_length {p : ℕ} (w : ℕ) (sbox : ZMod p → ZMod p) (M : ℕ → ℕ → ZMod p)
    (current ark : List (ZMod p)) : (statePart1 w sbox M current ark).length = w :=
  applyMds_length w M _

theorem statePart2_length {p : ℕ} (w : ℕ) (sbox : ZMod p → ZMod p) (Minv : ℕ → ℕ → ZMod p)
    (next ark : List (ZMod p)) (ha : 2 * w ≤ ark.length) :
    (statePart2 w sbox Minv next ark).length = w := by
  unfold statePart2 applySbox
  rw [List.length_zipWith, List.length_map, applyMds_length, List.length_take,
    List.length_drop]
  omega

theorem statePart2_getD {p : ℕ} (w : ℕ) (sbox : ZMod p → ZMod p) (Minv : ℕ → ℕ → ZMod p)
    (next ark : List (ZMod p)) (ha : 2 * w ≤ ark.length) (i : ℕ) (hi : i < w) :
    (statePart2 w sbox Minv next ark).getD i 0 =
      sbox ((applyMds w Minv (next.take w)).getD i 0) - ark.getD (w + i) 0 := by
  unfold statePart2 applySbox
  rw [getD_zipWith_of_lt _ _ _ _ _ ?h1 ?h2]
  case h1 => rw [List.length_map, applyMds_length]; exact hi
  case h2 => rw [List.length_take, List.length_drop]; omega
  rw [getD_map_of_lt _ _ _ 0 _ (by rw [applyMds_length]; exact hi)]
  rw [getD_take_of_lt _ _ _ _ hi, getD_drop_add]

/-! ## Equation and inversion lemmas for the evaluation routines -/

theorem evalHash_pos {p : ℕ} (w : ℕ) (sbox : ZMod p → ZMod p) (M Minv : ℕ → ℕ → ZMod p)
    (current next ark : List (ZMod p)) (opFlag : ZMod p) (result : List (ZMod p))
    (hc : w ≤ current.length) (hn : w ≤ next.length) (ha : 2 * w ≤ ark.length) :
    evalHash w sbox M Minv current next ark opFlag result =
      some ((List.range result.length).map fun i =>
        if i < min result.length w then
          result.getD i 0 + hashConstraint w sbox M Minv current next ark i * opFlag
        else result.getD i 0) := by
  unfold evalHash hashConstraint
  rw [if_pos ⟨hc, hn, ha⟩]

theorem evalHash_some_inv {p : ℕ} (w : ℕ) (sbox : ZMod p → ZMod p) (M Minv : ℕ → ℕ → ZMod p)
    (current next ark : List (ZMod p)) (opFlag : ZMod p) (result out : List (ZMod p))
    (h : evalHash w sbox M Minv current next ark opFlag result = some out) :
    (w ≤ current.length ∧ w ≤ next.length ∧ 2 * w ≤ ark.length) ∧
      out = (List.range result.length).map fun i =>
        if i < min result.length w then
          result.getD i 0 + hashConstraint w sbox M Minv current next ark i * opFlag
        else result.getD i 0 := by
  unfold evalHash at h
  split at h
  case isTrue hcond =>
    refine ⟨hcond, ?_⟩
    have hout := Option.some.inj h
    rw [← hout]
    unfold hashConstraint
    rfl
  case isFalse hcond => exact absurd h (by simp)

theorem evalRest_pos {p : ℕ} (w : ℕ) (current next : List (ZMod p)) (opFlag : ZMod p)
    (result : List (ZMod p))
    (hok : result.length ≤ w ∨ (result.length ≤ current.length ∧ result.length ≤ next.length)) :
    evalRest w current next opFlag result =
      some ((List.range result.length).map fun i =>
        if w ≤ i then result.getD i 0 + (next.getD i 0 - current.getD i 0) * opFlag
        else result.getD i 0) := by
  unfold evalRest
  rw [if_pos hok]

theorem evalRest_some_inv {p : ℕ} (w : ℕ) (current next : List (ZMod p)) (opFlag : ZMod p)
    (result out : List (ZMod p))
    (h : evalRest w current next opFlag result = some out) :
    out = (List.range result.length).map fun i =>
      if w ≤ i then result.getD i 0 + (next.getD i 0 - current.getD i 0) * opFlag
      else result.getD i 0 := by
  unfold evalRest at h
  split at h
  case isTrue hcond => exact (Option.some.inj h).symm
  case isFalse hcond => exact absurd h (by simp)

theorem evaluate_some_inv {p : ℕ} (NA w : ℕ) (sbox : ZMod p → ZMod p)
    (M Minv : ℕ → ℕ → ZMod p) (e : HashEvaluator p) (current next : List (ZMod p))
    (step : ℕ) (opFlag : ZMod p) (result out : List (ZMod p))
    (h : HashEvaluator.evaluate NA w sbox M Minv e current next step opFlag result = some out) :
    NA ≤ result.length ∧ step % e.cycleLength < e.arkValues.length ∧
      ∃ r1 r2,
        evalHash w sbox M Minv current next (e.arkValues.getD (step % e.cycleLength) [])
          opFlag (result.drop NA) = some r1 ∧
        evalRest w current next opFlag r1 = some r2 ∧
        out = result.take NA ++ r2 := by
  unfold HashEvaluator.evaluate at h
  split at h
  case isFalse hcond => exact absurd h (by simp)
  case isTrue hcond =>
    rcases Option.bind_eq_some.mp h with ⟨r1, h1, hmap⟩
    rcases Option.map_eq_some'.mp hmap with ⟨r2, h2, hout⟩
    exact ⟨hcond.1, hcond.2, r1, r2, h1, h2, hout.symm⟩

theorem evaluateAt_some_inv {p : ℕ} (NA w HCL : ℕ) (sbox : ZMod p → ZMod p)
    (M Minv : ℕ → ℕ → ZMod p) (e : HashEvaluator p) (current next : List (ZMod p))
    (x : ZMod p) (opFlag : ZMod p) (result out : List (ZMod p))
    (h : HashEvaluator.evaluateAt NA w HCL sbox M Minv e current next x opFlag result
      = some out) :
    NA ≤ result.length ∧ 2 * w ≤ e.arkPolys.length ∧
      ∃ r1 r2,
        evalHash w sbox M Minv current next
          ((List.range (2 * w)).map fun i =>
            polyEval (e.arkPolys.getD i []) (x ^ (e.traceLength / HCL)))
          opFlag (result.drop NA) = some r1 ∧
        evalRest w current next opFlag r1 = some r2 ∧
        out = result.take NA ++ r2 := by
  unfold HashEvaluator.evaluateAt at h
  split at h
  case isFalse hcond => exact absurd h (by simp)
  case isTrue hcond =>
    rcases Option.bind_eq_some.mp h with ⟨r1, h1, hmap⟩
    rcases Option.map_eq_some'.mp hmap with ⟨r2, h2, hout⟩
    exact ⟨hcond.1, hcond.2, r1, r2, h1, h2, hout.symm⟩

/-! ## Core equivalence between the constraint and the round semantics -/

theorem round_equiv_core {p : ℕ} (w : ℕ) (sbox invSbox : ZMod p → ZMod p)
    (M Minv : ℕ → ℕ → ZMod p)
    (hMMinv : ∀ i < w, ∀ k < w, ∑ j ∈ Finset.range w, M i j * Minv j k = if i = k then 1 else 0)
    (hMinvM : ∀ i < w, ∀ k < w, ∑ j ∈ Finset.range w, Minv i j * M j k = if i = k then 1 else 0)
    (hsi : ∀ y, invSbox (sbox y) = y) (hsf : ∀ y, sbox (invSbox y) = y)
    (F K2 nextw : List (ZMod p)) (hF : F.length = w) (hK2 : K2.length = w)
    (hnw : nextw.length = w) :
    (∀ i < w, sbox ((applyMds w Minv nextw).getD i 0) - K2.getD i 0 - F.getD i 0 = 0) ↔
      nextw = applyMds w M ((F.zipWith (· + ·) K2).map invSbox) := by
  have hmid : (F.zipWith (· + ·) K2).length = w := by
    rw [List.length_zipWith, hF, hK2, Nat.min_self]
  constructor
  · intro hz
    have hNmid : applyMds w Minv nextw = (F.zipWith (· + ·) K2).map invSbox := by
      apply ext_getD _ _ 0 (by rw [applyMds_length, List.length_map, hmid])
      intro i hi
      rw [applyMds_length] at hi
      have h2 : sbox ((applyMds w Minv nextw).getD i 0) = F.getD i 0 + K2.getD i 0 := by
        have h1a : sbox ((applyMds w Minv nextw).getD i 0) - K2.getD i 0 = F.getD i 0 :=
          sub_eq_zero.mp (hz i hi)
        rw [sub_eq_iff_eq_add] at h1a
        exact h1a
      have h3 : (applyMds w Minv nextw).getD i 0 = invSbox (F.getD i 0 + K2.getD i 0) := by
        rw [← h2, hsi]
      rw [h3, getD_map_of_lt _ _ _ 0 _ (by rw [hmid]; exact hi),
        getD_zipWith_of_lt _ _ _ _ _ (by rw [hF]; exact hi) (by rw [hK2]; exact hi)]
    calc nextw = applyMds w M (applyMds w Minv nextw) :=
          (applyMds_applyMds w M Minv hMMinv nextw hnw).symm
      _ = applyMds w M ((F.zipWith (· + ·) K2).map invSbox) := by rw [hNmid]
  · intro hr i hi
    have hNmid : applyMds w Minv nextw = (F.zipWith (· + ·) K2).map invSbox := by
      rw [hr]
      exact applyMds_applyMds w Minv M hMinvM _ (by rw [List.length_map, hmid])
    rw [hNmid, getD_map_of_lt _ _ _ 0 _ (by rw [hmid]; exact hi), hsf,
      getD_zipWith_of_lt _ _ _ _ _ (by rw [hF]; exact hi) (by rw [hK2]; exact hi)]
    ring

theorem hashConstraint_eq_parts {p : ℕ} (w : ℕ) (sbox : ZMod p → ZMod p)
    (M Minv : ℕ → ℕ → ZMod p) (current next ark : List (ZMod p))
    (ha : 2 * w ≤ ark.length) (i : ℕ) (hi : i < w) :
    hashConstraint w sbox M Minv current next ark i =
      sbox ((applyMds w Minv (next.take w)).getD i 0) - ((ark.drop w).take w).getD i 0
        - (statePart1 w sbox M current ark).getD i 0 := by
  unfold hashConstraint
  rw [statePart2_getD w sbox Minv next ark ha i hi, getD_take_of_lt _ _ _ _ hi, getD_drop_add]

/-! ## Claim C2 -/

/-- C2 (counterexample): the claim's round formula applies the FORWARD
nonlinear map in both halves.  Over `ZMod 11` with `w = 1`, the identity
mixing matrix and the cube sbox, the row pair `current = [0]`, `next = [8]`
with constants `ark = [1, 1]` satisfies the claim's formula
`next = MDS(Sbox(MDS(Sbox(current + K1)) + K2))`, yet the ungated
constraint value at position 0 is `4 ≠ 0` — so the claimed equivalence is
false as stated. -/
theorem claimed_round_not_constraint_zero :
    ([8] : List (ZMod 11)).take 1 = claimedRound 1 sbox11 idMat [0] [1, 1] ∧
      ¬ (∀ i < 1, hashConstraint 1 sbox11 idMat idMat [0] [8] [1, 1] i = 0) := by
  decide

/-- C2 (amended): with the mixing matrix and its inverse mutually inverse and
the nonlinear map a bijection, the ungated hash-round constraint values are
zero at every hash-state position iff the next row's hash-state prefix is the
genuine single-round image of the current one — where the round applies the
INVERSE nonlinear map in its second half,
`next = MDS(InvSbox(MDS(Sbox(current + K1)) + K2))`. -/
theorem hash_constraint_zero_iff_hashRound {p : ℕ} (w : ℕ)
    (sbox invSbox : ZMod p → ZMod p) (M Minv : ℕ → ℕ → ZMod p)
    (hMMinv : ∀ i < w, ∀ k < w, ∑ j ∈ Finset.range w, M i j * Minv j k = if i = k then 1 else 0)
    (hMinvM : ∀ i < w, ∀ k < w, ∑ j ∈ Finset.range w, Minv i j * M j k = if i = k then 1 else 0)
    (hsi : ∀ y, invSbox (sbox y) = y) (hsf : ∀ y, sbox (invSbox y) = y)
    (current next ark : List (ZMod p)) (hn : w ≤ next.length) (ha : 2 * w ≤ ark.length) :
    (∀ i < w, hashConstraint w sbox M Minv current next ark i = 0) ↔
      next.take w = hashRound w sbox invSbox M current ark := by
  have hcore := round_equiv_core w sbox invSbox M Minv hMMinv hMinvM hsi hsf
    (statePart1 w sbox M current ark) ((ark.drop w).take w) (next.take w)
    (statePart1_length w sbox M current ark)
    (by rw [List.length_take, List.length_drop]; omega)
    (by rw [List.length_take]; omega)
  constructor
  · intro hz
    exact hcore.mp fun i hi => by
      rw [← hashConstraint_eq_parts w sbox M Minv current next ark ha i hi]
      exact hz i hi
  · intro hr i hi
    rw [hashConstraint_eq_parts w sbox M Minv current next ark ha i hi]
    exact hcore.mpr hr i hi

/-- Witness for C2 (amended) at a concrete instance: `p = 11`, `w = 1`,
cube sbox with inverse `x ^ 7`, identity mixing matrix. -/
theorem hash_constraint_zero_iff_hashRound_witness :
    (∀ i < 1, hashConstraint 1 sbox11 idMat idMat [0] [7] [1, 1] i = 0) ↔
      ([7] : List (ZMod 11)).take 1 = hashRound 1 sbox11 isbox11 idMat [0] [1, 1] :=
  hash_constraint_zero_iff_hashRound 1 sbox11 isbox11 idMat idMat (by decide) (by decide)
    (by decide) (by decide) [0] [7] [1, 1] (by decide) (by decide)

theorem getD_append_left {α : Type} (a b : List α) (k : ℕ) (d : α) (h : k < a.length) :
    (a ++ b).getD k d = a.getD k d := by
  rw [List.getD_eq_getElem?_getD, List.getD_eq_getElem?_getD, List.getElem?_append, if_pos h]

theorem getD_append_right {α : Type} (a b : List α) (k : ℕ) (d : α) (h : a.length ≤ k) :
    (a ++ b).getD k d = b.getD (k - a.length) d := by
  rw [List.getD_eq_getElem?_getD, List.getD_eq_getElem?_getD, List.getElem?_append_right h]

theorem getD_set_self {α : Type} (l : List α) (j : ℕ) (v : α) (d : α) (h : j < l.length) :
    (l.set j v).getD j d = v := by
  rw [List.getD_eq_getElem?_getD, List.getElem?_set_self (by simpa using h)]
  rfl

/-! ## Claim C1 -/

/-- C1: on a successful call, `eval_hash` adds exactly
`op_flag * (state_part2[i] - state_part1[i])` to the accumulator entry at
each hash-state position `i < w`, where `state_part1` is
`MDS(Sbox(current_hash_state + forward_constants))` and `state_part2` is
`Sbox(InvMDS(next_hash_state)) - backward_constants`, both using the same
forward sbox. -/
theorem eval_hash_adds_gated_difference {p : ℕ} (w : ℕ) (sbox : ZMod p → ZMod p)
    (M Minv : ℕ → ℕ → ZMod p) (current next ark : List (ZMod p)) (opFlag : ZMod p)
    (result out : List (ZMod p)) (_ha : ark.length = 2 * w)
    (h : evalHash w sbox M Minv current next ark opFlag result = some out)
    (i : ℕ) (hi : i < w) (hir : i < result.length) :
    out.getD i 0 = result.getD i 0 +
      opFlag * ((statePart2 w sbox Minv next ark).getD i 0 -
        (statePart1 w sbox M current ark).getD i 0) := by
  obtain ⟨hcond, hout⟩ :=
    evalHash_some_inv w sbox M Minv current next ark opFlag result out h
  rw [hout, getD_range_map _ _ _ _ hir, if_pos (by omega : i < min result.length w)]
  unfold hashConstraint
  ring

/-- Witness for C1 at a concrete instance (`p = 11`, `w = 1`). -/
theorem eval_hash_adds_gated_difference_witness :
    ([4] : List (ZMod 11)).getD 0 0 = ([0] : List (ZMod 11)).getD 0 0 +
      1 * ((statePart2 1 sbox11 idMat [8] [1, 1]).getD 0 0 -
        (statePart1 1 sbox11 idMat [0] [1, 1]).getD 0 0) :=
  eval_hash_adds_gated_difference 1 sbox11 idMat idMat [0] [8] [1, 1] 1 [0] [4]
    (by decide) (by decide) 0 (by decide) (by decide)

/-! ## Claim C4 -/

theorem evalHash_flag_zero {p : ℕ} (w : ℕ) (sbox : ZMod p → ZMod p)
    (M Minv : ℕ → ℕ → ZMod p) (current next ark : List (ZMod p)) (result out : List (ZMod p))
    (h : evalHash w sbox M Minv current next ark 0 result = some out) : out = result := by
  obtain ⟨hcond, hout⟩ :=
    evalHash_some_inv w sbox M Minv current next ark 0 result out h
  rw [hout]
  simp only [mul_zero, add_zero, ite_self]
  exact map_getD_range result 0

theorem evalRest_flag_zero {p : ℕ} (w : ℕ) (current next : List (ZMod p))
    (result out : List (ZMod p)) (h : evalRest w current next 0 result = some out) :
    out = result := by
  have hout := evalRest_some_inv w current next 0 result out h
  rw [hout]
  simp only [mul_zero, add_zero, ite_self]
  exact map_getD_range result 0

/-- C4: with selector flag `0`, both `evaluate` and `evaluate_at` return the
accumulator exactly unchanged (whenever they return at all), for every
current row, next row, step index and field point. -/
theorem flag_zero_leaves_accumulator {p : ℕ} (NA w HCL : ℕ) (sbox : ZMod p → ZMod p)
    (M Minv : ℕ → ℕ → ZMod p) (e : HashEvaluator p) (current next : List (ZMod p))
    (step : ℕ) (x : ZMod p) (result : List (ZMod p)) :
    (∀ out, HashEvaluator.evaluate NA w sbox M Minv e current next step 0 result = some out →
      out = result) ∧
    (∀ out, HashEvaluator.evaluateAt NA w HCL sbox M Minv e current next x 0 result = some out →
      out = result) := by
  constructor
  · intro out h
    obtain ⟨hNA, hstep, r1, r2, h1, h2, hout⟩ :=
      evaluate_some_inv NA w sbox M Minv e current next step 0 result out h
    rw [hout, evalRest_flag_zero w current next r1 r2 h2,
      evalHash_flag_zero w sbox M Minv current next _ (result.drop NA) r1 h1,
      List.take_append_drop]
  · intro out h
    obtain ⟨hNA, hpolys, r1, r2, h1, h2, hout⟩ :=
      evaluateAt_some_inv NA w HCL sbox M Minv e current next x 0 result out h
    rw [hout, evalRest_flag_zero w current next r1 r2 h2,
      evalHash_flag_zero w sbox M Minv current next _ (result.drop NA) r1 h1,
      List.take_append_drop]

/-- Witness for C4 at a concrete instance: both paths succeed with flag `0`
and return the accumulator `[9, 9]` unchanged. -/
theorem flag_zero_leaves_accumulator_witness :
    HashEvaluator.evaluate 1 1 sbox11 idMat idMat ⟨4, 2, [[1, 1], [2, 2]], [[1], [1]]⟩
        [5, 6] [7, 8] 3 0 [9, 9] = some [9, 9] ∧
      HashEvaluator.evaluateAt 1 1 2 sbox11 idMat idMat ⟨4, 2, [[1, 1], [2, 2]], [[1], [1]]⟩
        [5, 6] [7, 8] 3 0 [9, 9] = some [9, 9] ∧
      ([9, 9] : List (ZMod 11)) = [9, 9] :=
  ⟨by decide, by decide,
    (flag_zero_leaves_accumulator 1 1 2 sbox11 idMat idMat
      ⟨4, 2, [[1, 1], [2, 2]], [[1], [1]]⟩ [5, 6] [7, 8] 3 3 [9, 9]).1 [9, 9] (by decide)⟩

/-! ## Claim C5 -/

/-- C5: on a successful call, `eval_rest` adds exactly
`op_flag * (next[i] - current[i])` to the accumulator entry at every
auxiliary position `w ≤ i < result.length`; with flag `1`, the accumulator
is unchanged at every such position iff `next[i] = current[i]` at every such
position — independently of the hash-state contents. -/
theorem eval_rest_copy_constraint {p : ℕ} (w : ℕ) (current next : List (ZMod p))
    (opFlag : ZMod p) (result out : List (ZMod p))
    (h : evalRest w current next opFlag result = some out) :
    (∀ i, w ≤ i → i < result.length →
      out.getD i 0 = result.getD i 0 + opFlag * (next.getD i 0 - current.getD i 0)) ∧
    (opFlag = 1 →
      ((∀ i, w ≤ i → i < result.length → out.getD i 0 = result.getD i 0) ↔
        (∀ i, w ≤ i → i < result.length → next.getD i 0 = current.getD i 0))) := by
  have hout := evalRest_some_inv w current next opFlag result out h
  constructor
  · intro i hwi hir
    rw [hout, getD_range_map _ _ _ _ hir, if_pos hwi]
    ring
  · intro hflag
    constructor
    · intro hid i hwi hir
      have hthis := hid i hwi hir
      rw [hout, getD_range_map _ _ _ _ hir, if_pos hwi, hflag, mul_one] at hthis
      exact sub_eq_zero.mp (add_right_eq_self.mp hthis)
    · intro hcopy i hwi hir
      rw [hout, getD_range_map _ _ _ _ hir, if_pos hwi, hcopy i hwi hir]
      simp

/-- Witness for C5 at a concrete instance (`w = 1`, rows `[5, 6]` / `[7, 8]`,
accumulator `[9, 9]`): position 1 gains `1 * (8 - 6) = 2`. -/
theorem eval_rest_copy_constraint_witness :
    evalRest 1 ([5, 6] : List (ZMod 11)) [7, 8] 1 [9, 9] = some [9, 0] ∧
      ([0] : List (ZMod 11)) = [0] ∧
      (([9, 0] : List (ZMod 11)).getD 1 0 =
        ([9, 9] : List (ZMod 11)).getD 1 0 + 1 * ([7, 8].getD 1 0 - [5, 6].getD 1 0)) :=
  ⟨by decide, rfl,
    (eval_rest_copy_constraint 1 [5, 6] [7, 8] 1 [9, 9] [9, 0] (by decide)).1 1
      (by decide) (by decide)⟩

/-! ## Claim C6 -/

/-- C6 (counterexample): construction does NOT fail fast on every structural
precondition violation.  With base cycle length 2, a trace length of 3 (not
divisible by 2) is accepted by `new` without any check; and `eval_hash`
succeeds on an accumulator slice shorter than the hash-state width,
silently evaluating fewer constraints (here: none at all). -/
theorem new_no_divisibility_check :
    ¬ (2 ∣ 3) ∧
      (HashEvaluator.new 2 1 3 1 ([[1], [1]] : List (List (ZMod 11)))
        [[5, 5], [6, 6]]).isSome = true ∧
      evalHash 1 sbox11 idMat idMat ([0] : List (ZMod 11)) [0] [1, 1] 1 [] = some [] := by
  decide

/-- C6 (amended): `new` fails exactly when the collaborator's evaluation
table has fewer than `2*w` columns or a used column shorter than the
extended cycle (oversized tables are silently truncated and the trace
length is never checked for divisibility by the base cycle length);
`eval_hash` fails exactly when a row is shorter than the hash-state width or
the constants row is shorter than `2*w` — the accumulator slice length is
not checked, a short slice silently yields fewer hash constraints; and
`eval_rest` fails exactly when the rows are shorter than the accumulator
slice it walks. -/
theorem construction_and_evaluation_failure_characterization {p : ℕ}
    (HCL w tl ext : ℕ) (polys evals : List (List (ZMod p))) (sbox : ZMod p → ZMod p)
    (M Minv : ℕ → ℕ → ZMod p) (current next ark : List (ZMod p)) (opFlag : ZMod p)
    (result : List (ZMod p)) :
    ((HashEvaluator.new HCL w tl ext polys evals).isSome = true ↔
      (2 * w ≤ evals.length ∧ ∀ col ∈ evals.take (2 * w), HCL * ext ≤ col.length)) ∧
    ((evalHash w sbox M Minv current next ark opFlag result).isSome = true ↔
      (w ≤ current.length ∧ w ≤ next.length ∧ 2 * w ≤ ark.length)) ∧
    ((evalRest w current next opFlag result).isSome = true ↔
      (result.length ≤ w ∨
        (result.length ≤ current.length ∧ result.length ≤ next.length))) := by
  refine ⟨?_, ?_, ?_⟩
  · unfold HashEvaluator.new
    split
    case isTrue hc => simpa using hc
    case isFalse hc => simpa using hc
  · unfold evalHash
    split
    case isTrue hc => simpa using hc
    case isFalse hc => simpa using hc
  · unfold evalRest
    split
    case isTrue hc => simpa using hc
    case isFalse hc => simpa using hc

/-! ## Claim C7 -/

/-- C7 (counterexample): over `ZMod 11` with `w = 2`, the MDS matrix
`[[1,1],[1,2]]` and the cube sbox, `(current, next) = ([0,0], [0,10])` is a
genuine round transition under `ark = [1,2,3,4]` (all ungated constraint
values are zero), but adding the nonzero delta `1` to `next[0]` makes the
contribution at the OTHER position 1 nonzero as well — the inverse MDS
matrix mixes the perturbation into every position, contradicting "the
contributions at the other hash-state positions remain zero". -/
theorem perturbation_spreads_to_other_positions :
    ([0, 10] : List (ZMod 11)).take 2 = hashRound 2 sbox11 isbox11 mdsA [0, 0] [1, 2, 3, 4] ∧
      (∀ i < 2, hashConstraint 2 sbox11 mdsA mdsAinv [0, 0] [0, 10] [1, 2, 3, 4] i = 0) ∧
      (1 : ZMod 11) ≠ 0 ∧
      ([1, 10] : List (ZMod 11)).take 2 =
        (([0, 10] : List (ZMod 11)).take 2).set 0 (([0, 10] : List (ZMod 11)).getD 0 0 + 1) ∧
      hashConstraint 2 sbox11 mdsA mdsAinv [0, 0] [1, 10] [1, 2, 3, 4] 1 ≠ 0 := by
  decide

/-- C7 (amended): starting from a transition whose ungated constraint values
are all zero, adding a nonzero delta to a single hash-state entry of the
next row makes the constraint value nonzero at AT LEAST ONE hash-state
position (the perturbed transition is rejected); the nonzero positions need
not be confined to the perturbed entry. -/
theorem perturbation_detected_somewhere {p : ℕ} (w : ℕ) (sbox : ZMod p → ZMod p)
    (M Minv : ℕ → ℕ → ZMod p)
    (hMMinv : ∀ i < w, ∀ k < w, ∑ j ∈ Finset.range w, M i j * Minv j k = if i = k then 1 else 0)
    (hsInj : ∀ a b, sbox a = sbox b → a = b)
    (current next nextp ark : List (ZMod p)) (hn : w ≤ next.length)
    (hnp : w ≤ nextp.length) (ha : 2 * w ≤ ark.length)
    (j : ℕ) (hj : j < w) (d : ZMod p) (hd : d ≠ 0)
    (hpert : nextp.take w = (next.take w).set j (next.getD j 0 + d))
    (hzero : ∀ i < w, hashConstraint w sbox M Minv current next ark i = 0) :
    ∃ i, i < w ∧ hashConstraint w sbox M Minv current nextp ark i ≠ 0 := by
  by_contra hno
  push_neg at hno
  have hEq : applyMds w Minv (nextp.take w) = applyMds w Minv (next.take w) := by
    apply ext_getD _ _ 0 (by rw [applyMds_length, applyMds_length])
    intro i hi
    rw [applyMds_length] at hi
    have z1 := hno i hi
    have z2 := hzero i hi
    rw [hashConstraint_eq_parts w sbox M Minv current nextp ark ha i hi] at z1
    rw [hashConstraint_eq_parts w sbox M Minv current next ark ha i hi] at z2
    exact hsInj _ _ (by linear_combination z1 - z2)
  have hcancel1 : applyMds w M (applyMds w Minv (nextp.take w)) = nextp.take w :=
    applyMds_applyMds w M Minv hMMinv _ (by rw [List.length_take]; omega)
  have hcancel2 : applyMds w M (applyMds w Minv (next.take w)) = next.take w :=
    applyMds_applyMds w M Minv hMMinv _ (by rw [List.length_take]; omega)
  have hEq2 : nextp.take w = next.take w := by
    rw [← hcancel1, ← hcancel2, hEq]
  rw [hpert] at hEq2
  have hlen : j < (next.take w).length := by rw [List.length_take]; omega
  have hgd : ((next.take w).set j (next.getD j 0 + d)).getD j 0 = (next.take w).getD j 0 := by
    rw [hEq2]
  rw [getD_set_self _ _ _ _ hlen, getD_take_of_lt _ _ _ _ hj] at hgd
  exact hd (add_right_eq_self.mp hgd)

/-- Witness for C7 (amended) at the concrete counterexample instance. -/
theorem perturbation_detected_somewhere_witness :
    ∃ i, i < 2 ∧ hashConstraint 2 sbox11 mdsA mdsAinv [0, 0] [1, 10] [1, 2, 3, 4] i ≠ 0 :=
  perturbation_detected_somewhere 2 sbox11 mdsA mdsAinv (by decide) (by decide)
    [0, 0] [0, 10] [1, 10] [1, 2, 3, 4] (by decide) (by decide) (by decide)
    0 (by decide) 1 (by decide) (by decide) (by decide)

/-! ## Claim C8 -/

theorem slice_pipeline_getD {p : ℕ} (w : ℕ) (sbox : ZMod p → ZMod p)
    (M Minv : ℕ → ℕ → ZMod p) (current next ark : List (ZMod p)) (opFlag : ZMod p)
    (acc r1 r2 : List (ZMod p))
    (h1 : evalHash w sbox M Minv current next ark opFlag acc = some r1)
    (h2 : evalRest w current next opFlag r1 = some r2) :
    r2.length = acc.length ∧ ∀ i < acc.length,
      r2.getD i 0 = acc.getD i 0 +
        contribution w sbox M Minv current next ark opFlag i := by
  obtain ⟨hcond, hr1⟩ :=
    evalHash_some_inv w sbox M Minv current next ark opFlag acc r1 h1
  have hr2 := evalRest_some_inv w current next opFlag r1 r2 h2
  have hlen1 : r1.length = acc.length := by rw [hr1]; simp
  have hlen2 : r2.length = r1.length := by rw [hr2]; simp
  refine ⟨by rw [hlen2, hlen1], ?_⟩
  intro i hi
  have hi1 : i < r1.length := by omega
  rw [hr2, getD_range_map _ _ _ _ hi1, hr1, getD_range_map _ _ _ _ hi]
  unfold contribution
  by_cases hw : i < w
  · rw [if_neg (by omega : ¬ w ≤ i), if_pos (by omega : i < min acc.length w), if_pos hw]
  · rw [if_pos (by omega : w ≤ i), if_neg (by omega : ¬ i < min acc.length w), if_neg hw]

/-- C8: both evaluation paths are additive in the accumulator — on return,
the accumulator has its original length, the first `NA` entries (the region
reserved for constraints not owned by this instruction) are exactly
unchanged, and every later entry equals its prior value plus this
evaluator's own `contribution` for that position, a quantity independent of
the accumulator's prior contents. -/
theorem evaluation_additive_and_aux_region_untouched {p : ℕ} (NA w HCL : ℕ)
    (sbox : ZMod p → ZMod p) (M Minv : ℕ → ℕ → ZMod p) (e : HashEvaluator p)
    (current next : List (ZMod p)) (step : ℕ) (x : ZMod p) (opFlag : ZMod p)
    (resF resS outF outS : List (ZMod p))
    (hF : HashEvaluator.evaluate NA w sbox M Minv e current next step opFlag resF = some outF)
    (hS : HashEvaluator.evaluateAt NA w HCL sbox M Minv e current next x opFlag resS
      = some outS) :
    (outF.length = resF.length ∧ (∀ k < NA, outF.getD k 0 = resF.getD k 0) ∧
      ∀ i, NA + i < resF.length →
        outF.getD (NA + i) 0 = resF.getD (NA + i) 0 +
          contribution w sbox M Minv current next
            (e.arkValues.getD (step % e.cycleLength) []) opFlag i) ∧
    (outS.length = resS.length ∧ (∀ k < NA, outS.getD k 0 = resS.getD k 0) ∧
      ∀ i, NA + i < resS.length →
        outS.getD (NA + i) 0 = resS.getD (NA + i) 0 +
          contribution w sbox M Minv current next
            ((List.range (2 * w)).map fun i =>
              polyEval (e.arkPolys.getD i []) (x ^ (e.traceLength / HCL))) opFlag i) := by
  constructor
  · obtain ⟨hNA, hstep, r1, r2, h1, h2, hout⟩ :=
      evaluate_some_inv NA w sbox M Minv e current next step opFlag resF outF hF
    obtain ⟨hlen, hadd⟩ := slice_pipeline_getD w sbox M Minv current next _ opFlag
      (resF.drop NA) r1 r2 h1 h2
    have htake : (resF.take NA).length = NA := by rw [List.length_take]; omega
    have hdlen : (resF.drop NA).length = resF.length - NA := List.length_drop NA resF
    refine ⟨?_, ?_, ?_⟩
    · rw [hout, List.length_append, htake, hlen, hdlen]; omega
    · intro k hk
      rw [hout, getD_append_left _ _ _ _ (by omega), getD_take_of_lt _ _ _ _ hk]
    · intro i hNAi
      have hiacc : i < (resF.drop NA).length := by omega
      rw [hout, getD_append_right _ _ _ _ (by omega), htake,
        Nat.add_sub_cancel_left, hadd i hiacc, getD_drop_add]
  · obtain ⟨hNA, hpolys, r1, r2, h1, h2, hout⟩ :=
      evaluateAt_some_inv NA w HCL sbox M Minv e current next x opFlag resS outS hS
    obtain ⟨hlen, hadd⟩ := slice_pipeline_getD w sbox M Minv current next _ opFlag
      (resS.drop NA) r1 r2 h1 h2
    have htake : (resS.take NA).length = NA := by rw [List.length_take]; omega
    have hdlen : (resS.drop NA).length = resS.length - NA := List.length_drop NA resS
    refine ⟨?_, ?_, ?_⟩
    · rw [hout, List.length_append, htake, hlen, hdlen]; omega
    · intro k hk
      rw [hout, getD_append_left _ _ _ _ (by omega), getD_take_of_lt _ _ _ _ hk]
    · intro i hNAi
      have hiacc : i < (resS.drop NA).length := by omega
      rw [hout, getD_append_right _ _ _ _ (by omega), htake,
        Nat.add_sub_cancel_left, hadd i hiacc, getD_drop_add]

/-- Witness for C8 at a concrete instance (`p = 11`, `w = 1`, `NA = 1`):
the reserved entry `9` is untouched and position `1 = NA + 0` gains the
hash contribution. -/
theorem evaluation_additive_witness :
    HashEvaluator.evaluate 1 1 sbox11 idMat idMat ⟨4, 2, [[1, 1], [2, 2]], [[1], [1]]⟩
        [5, 6] [7, 8] 3 1 [9, 9] = some [9, 7] ∧
      HashEvaluator.evaluateAt 1 1 2 sbox11 idMat idMat ⟨4, 2, [[1, 1], [2, 2]], [[1], [1]]⟩
        [5, 6] [7, 8] 3 1 [9, 9] = some [9, 3] ∧
      (([9, 7] : List (ZMod 11)).getD 0 0 = ([9, 9] : List (ZMod 11)).getD 0 0) ∧
      (([9, 7] : List (ZMod 11)).getD 1 0 = ([9, 9] : List (ZMod 11)).getD 1 0 +
        contribution 1 sbox11 idMat idMat [5, 6] [7, 8] [2, 2] 1 0) :=
  ⟨by decide, by decide,
    ((evaluation_additive_and_aux_region_untouched 1 1 2 sbox11 idMat idMat
      ⟨4, 2, [[1, 1], [2, 2]], [[1], [1]]⟩ [5, 6] [7, 8] 3 3 1 [9, 9] [9, 9] [9, 7] [9, 3]
      (by decide) (by decide)).1).2.1 0 (by decide),
    ((evaluation_additive_and_aux_region_untouched 1 1 2 sbox11 idMat idMat
      ⟨4, 2, [[1, 1], [2, 2]], [[1], [1]]⟩ [5, 6] [7, 8] 3 3 1 [9, 9] [9, 9] [9, 7] [9, 3]
      (by decide) (by decide)).1).2.2 0 (by decide)⟩

/-! ## Claim C9 -/

/-- C9: an evaluator built by `new` has extended cycle length
`HASH_CYCLE_LENGTH * extension_factor`; the fast path selects the constant
row at index `step % cycleLength`, so the row fetched for step
`s + cycleLength` is the row fetched for step `s`, and `evaluate` gives
identical results at `s` and `s + cycleLength` for every step `s` (also
beyond the extended domain), rows, flag and accumulator. -/
theorem ark_row_periodicity {p : ℕ} (NA w HCL : ℕ) (sbox : ZMod p → ZMod p)
    (M Minv : ℕ → ℕ → ZMod p) (tl ext : ℕ) (polys evals : List (List (ZMod p)))
    (e : HashEvaluator p) (hnew : HashEvaluator.new HCL w tl ext polys evals = some e)
    (current next : List (ZMod p)) (s : ℕ) (opFlag : ZMod p) (result : List (ZMod p)) :
    e.cycleLength = HCL * ext ∧
      e.arkValues.getD ((s + e.cycleLength) % e.cycleLength) [] =
        e.arkValues.getD (s % e.cycleLength) [] ∧
      HashEvaluator.evaluate NA w sbox M Minv e current next (s + e.cycleLength) opFlag result
        = HashEvaluator.evaluate NA w sbox M Minv e current next s opFlag result := by
  refine ⟨?_, ?_, ?_⟩
  · unfold HashEvaluator.new at hnew
    split at hnew
    case isFalse => exact absurd hnew (by simp)
    case isTrue hc =>
      rw [← Option.some.inj hnew]
  · rw [Nat.add_mod_right]
  · unfold HashEvaluator.evaluate
    rw [Nat.add_mod_right]

/-- Witness for C9 at a concrete instance. -/
theorem ark_row_periodicity_witness :
    (⟨2, 2, [[7, 5], [10, 5]], [[3, 4], [5]]⟩ : HashEvaluator 11).cycleLength = 2 * 1 ∧
      (⟨2, 2, [[7, 5], [10, 5]], [[3, 4], [5]]⟩ : HashEvaluator 11).arkValues.getD
          ((1 + (⟨2, 2, [[7, 5], [10, 5]], [[3, 4], [5]]⟩ : HashEvaluator 11).cycleLength) %
            (⟨2, 2, [[7, 5], [10, 5]], [[3, 4], [5]]⟩ : HashEvaluator 11).cycleLength) [] =
        (⟨2, 2, [[7, 5], [10, 5]], [[3, 4], [5]]⟩ : HashEvaluator 11).arkValues.getD
          (1 % (⟨2, 2, [[7, 5], [10, 5]], [[3, 4], [5]]⟩ : HashEvaluator 11).cycleLength) [] ∧
      HashEvaluator.evaluate 1 1 sbox11 idMat idMat
          ⟨2, 2, [[7, 5], [10, 5]], [[3, 4], [5]]⟩ [5, 6] [7, 8]
          (1 + (⟨2, 2, [[7, 5], [10, 5]], [[3, 4], [5]]⟩ : HashEvaluator 11).cycleLength)
          1 [9, 9]
        = HashEvaluator.evaluate 1 1 sbox11 idMat idMat
          ⟨2, 2, [[7, 5], [10, 5]], [[3, 4], [5]]⟩ [5, 6] [7, 8] 1 1 [9, 9] :=
  ark_row_periodicity 1 1 2 sbox11 idMat idMat 2 1 [[3, 4], [5]] [[7, 10], [5, 5]]
    ⟨2, 2, [[7, 5], [10, 5]], [[3, 4], [5]]⟩ (by decide) [5, 6] [7, 8] 1 1 [9, 9]

/-! ## Claim C10 -/

/-- C10: evaluation is a deterministic pure function of its inputs — two
invocations of `evaluate` (or `evaluate_at`) with equal evaluator, rows,
position, flag and starting accumulator produce equal results.  (In this
embedding the evaluator, the rows and the accumulator are immutable values,
which is exactly the no-mutation half of the claim.) -/
theorem evaluation_deterministic {p : ℕ} (NA w HCL : ℕ) (sbox : ZMod p → ZMod p)
    (M Minv : ℕ → ℕ → ZMod p) (e1 e2 : HashEvaluator p)
    (c1 c2 n1 n2 : List (ZMod p)) (s1 s2 : ℕ) (x1 x2 f1 f2 : ZMod p)
    (r1 r2 : List (ZMod p)) (he : e1 = e2) (hc : c1 = c2) (hn : n1 = n2) (hs : s1 = s2)
    (hx : x1 = x2) (hf : f1 = f2) (hr : r1 = r2) :
    HashEvaluator.evaluate NA w sbox M Minv e1 c1 n1 s1 f1 r1 =
      HashEvaluator.evaluate NA w sbox M Minv e2 c2 n2 s2 f2 r2 ∧
    HashEvaluator.evaluateAt NA w HCL sbox M Minv e1 c1 n1 x1 f1 r1 =
      HashEvaluator.evaluateAt NA w HCL sbox M Minv e2 c2 n2 x2 f2 r2 := by
  subst he hc hn hs hx hf hr
  exact ⟨rfl, rfl⟩

/-- Witness for C10 at a concrete instance. -/
theorem evaluation_deterministic_witness :
    HashEvaluator.evaluate 1 1 sbox11 idMat idMat ⟨4, 2, [[1, 1], [2, 2]], [[1], [1]]⟩
        [5, 6] [7, 8] 3 1 [9, 9] =
      HashEvaluator.evaluate 1 1 sbox11 idMat idMat ⟨4, 2, [[1, 1], [2, 2]], [[1], [1]]⟩
        [5, 6] [7, 8] 3 1 [9, 9] ∧
      HashEvaluator.evaluateAt 1 1 2 sbox11 idMat idMat ⟨4, 2, [[1, 1], [2, 2]], [[1], [1]]⟩
        [5, 6] [7, 8] 6 1 [9, 9] =
      HashEvaluator.evaluateAt 1 1 2 sbox11 idMat idMat ⟨4, 2, [[1, 1], [2, 2]], [[1], [1]]⟩
        [5, 6] [7, 8] 6 1 [9, 9] :=
  evaluation_deterministic 1 1 2 sbox11 idMat idMat
    ⟨4, 2, [[1, 1], [2, 2]], [[1], [1]]⟩ ⟨4, 2, [[1, 1], [2, 2]], [[1], [1]]⟩
    [5, 6] [5, 6] [7, 8] [7, 8] 3 3 6 6 1 1 [9, 9] [9, 9]
    rfl rfl rfl rfl rfl rfl rfl

/-! ## Claim C3 -/

/-- C3: fast-path / slow-path agreement.  For an evaluator built by `new`
from a collaborator whose dense evaluations table the round-constant
polynomials over the extended cycle domain (generated by `g ^ (tl / HCL)`,
a point of order dividing the extended cycle length), evaluating at the
field point `g ^ s` corresponding to step `s` produces exactly the same
result — hence the same accumulator contributions — as the fast path at
step `s`: raising the point to the number of cycles and evaluating each
constant polynomial there reproduces the precomputed table row
`arkValues[s % cycleLength]`. -/
theorem evaluate_at_agrees_with_evaluate {p : ℕ} (NA w HCL : ℕ) (sbox : ZMod p → ZMod p)
    (M Minv : ℕ → ℕ → ZMod p) (tl ext : ℕ) (polys evals : List (List (ZMod p)))
    (e : HashEvaluator p) (hnew : HashEvaluator.new HCL w tl ext polys evals = some e)
    (hHCL : 0 < HCL) (hext : 0 < ext) (hpolys : 2 * w ≤ polys.length)
    (g : ZMod p)
    (hevals : ∀ j < 2 * w, ∀ i < HCL * ext,
      (evals.getD j []).getD i 0 = polyEval (polys.getD j []) ((g ^ (tl / HCL)) ^ i))
    (hper : (g ^ (tl / HCL)) ^ (HCL * ext) = 1)
    (s : ℕ) (current next : List (ZMod p)) (opFlag : ZMod p) (result : List (ZMod p)) :
    HashEvaluator.evaluateAt NA w HCL sbox M Minv e current next (g ^ s) opFlag result =
      HashEvaluator.evaluate NA w sbox M Minv e current next s opFlag result := by
  unfold HashEvaluator.new at hnew
  split at hnew
  case isFalse => exact absurd hnew (by simp)
  case isTrue hcond =>
  have he := Option.some.inj hnew
  subst he
  have hcyc0 : 0 < HCL * ext := Nat.mul_pos hHCL hext
  have hmod : s % (HCL * ext) < HCL * ext := Nat.mod_lt _ hcyc0
  have hpow : (g ^ s) ^ (tl / HCL) = (g ^ (tl / HCL)) ^ (s % (HCL * ext)) := by
    rw [← pow_mul, mul_comm, pow_mul]
    conv_lhs => rw [← Nat.mod_add_div s (HCL * ext)]
    rw [pow_add, pow_mul, hper, one_pow, mul_one]
  have hark :
      ((List.range (2 * w)).map fun i => polyEval (polys.getD i []) ((g ^ s) ^ (tl / HCL)))
        = ((List.range (HCL * ext)).map fun i =>
            (List.range (2 * w)).map fun j => (evals.getD j []).getD i 0).getD
              (s % (HCL * ext)) [] := by
    rw [getD_range_map _ _ _ _ hmod]
    refine List.map_congr_left fun j hj => ?_
    rw [hpow, ← hevals j (List.mem_range.mp hj) (s % (HCL * ext)) hmod]
  unfold HashEvaluator.evaluateAt HashEvaluator.evaluate
  dsimp only
  by_cases hNA : NA ≤ result.length
  · rw [if_pos ⟨hNA, hpolys⟩, if_pos ⟨hNA, by simpa using hmod⟩, hark]
  · rw [if_neg (by tauto), if_neg (by tauto)]

/-- Witness for C3 at a concrete instance: `p = 11`, `w = 1`, base cycle 2,
trace length 2, extension factor 1, domain generator `g = 10` (of order 2),
constant polynomials `3 + 4x` and `5`, step `s = 1`. -/
theorem evaluate_at_agrees_with_evaluate_witness :
    HashEvaluator.evaluateAt 1 1 2 sbox11 idMat idMat
        ⟨2, 2, [[7, 5], [10, 5]], [[3, 4], [5]]⟩ [5, 6] [7, 8] ((10 : ZMod 11) ^ 1) 1 [9, 9]
      = HashEvaluator.evaluate 1 1 sbox11 idMat idMat
        ⟨2, 2, [[7, 5], [10, 5]], [[3, 4], [5]]⟩ [5, 6] [7, 8] 1 1 [9, 9] :=
  evaluate_at_agrees_with_evaluate 1 1 2 sbox11 idMat idMat 2 1 [[3, 4], [5]]
    [[7, 10], [5, 5]] ⟨2, 2, [[7, 5], [10, 5]], [[3, 4], [5]]⟩ (by decide) (by decide)
    (by decide) (by decide) 10 (by decide) (by decide) 1 [5, 6] [7, 8] 1 [9, 9]
